import Mathlib

/-!
# mob: the `boost` and `openssl` tasks and `task::parallel`

A shallow embedding of `src/tasks/boost.cpp`, `src/tasks/openssl.cpp` and of
`task::parallel` / `task::run_tool` from `src/tasks/task.h`.

Conventions of the embedding:

* `std::string` is `String`; string algorithms work on its list of characters
  (`String.data`) so that every definition evaluates.
* `fs::path` is the list of its components, root first; `p / name` appends the
  components of `name`, split at the directory separators.
* `bail_out` (a fatal diagnostic that ends the process) is `Except.error`.
* Logging calls (`cx().trace`, `cx().debug`) have no effect on the outside
  world and are left out.
* Code that performs effects (`run_tool`, `op::delete_*`) records them, in
  program order, in an explicit state.
-/

namespace mob

/-! ## Shared vocabulary -/

/-- A `fs::path`: its components, root first. -/
abbrev fs_path := List String

/-- A directory separator in the text of a path, on the platform the tasks
build for: `/` or `\`. -/
def is_separator (c : Char) : Bool := c == '/' || c == '\\'

/-- The components of a path given as text: the maximal runs of characters
other than separators, in order; `cur` is the component being read. -/
def split_components : List Char → List Char → List (List Char)
  | cur, [] => if cur = [] then [] else [cur]
  | cur, c :: cs =>
    if is_separator c then
      (if cur = [] then split_components [] cs else cur :: split_components [] cs)
    else split_components (cur ++ [c]) cs

/-- The components of the path `fs::path(name)`. -/
def path_components (name : String) : List String :=
  (split_components [] name.data).map String.mk

/-- `p / name` (`fs::path::operator/`): the components of `name` are appended
to those of `p`; a `name` that begins with a separator starts again at the
root.  Nothing is resolved: a component `..` stays a component.  (Drive
letters are not modelled; no operand in the tasks begins with one.) -/
def fs_path.join (p : fs_path) (name : String) : fs_path :=
  match name.data with
  | [] => p
  | c :: _ => if is_separator c then path_components name else p ++ path_components name

/-- One step of resolving a path: `.` stays where it is, `..` goes up to the
parent, any other component goes down into it. -/
def fs_path.resolve_step (acc : fs_path) (c : String) : fs_path :=
  if c = "." then acc else if c = ".." then acc.dropLast else acc ++ [c]

/-- The location a path names, as the operating system resolves it from the
root: without `.` and `..`. -/
def fs_path.resolve (p : fs_path) : fs_path := p.foldl fs_path.resolve_step []

/-- A `mob::url`. -/
abbrev url := String

/-- `arch` as used by the tasks: the enumerators named in
`address_model_for_arch`. -/
inductive arch
  | x86
  | x64
  | dont_care
deriving DecidableEq, Repr

/-- The configuration the tasks read.  `version` is
`conf().version().get(name)` (`versions::by_name(name)` in openssl.cpp),
`is_prebuilt` is `conf().prebuilt().get<bool>(name)`, `path_build` is
`conf().path().build()` (`paths::build()`), and `make_prebuilt_url` is the
helper of that name, whose definition is outside the translated files. -/
structure conf where
  version : String → String
  is_prebuilt : String → Bool
  path_build : fs_path
  make_prebuilt_url : String → url

/-- `\d` of the regular expressions: an ASCII decimal digit. -/
def is_digit (c : Char) : Bool := decide ('0' ≤ c) && decide (c ≤ '9')

/-- `[a-zA-Z]` of the regular expressions. -/
def is_letter (c : Char) : Bool :=
  (decide ('a' ≤ c) && decide (c ≤ 'z')) || (decide ('A' ≤ c) && decide (c ≤ 'Z'))

/-- `.` of an ECMAScript regular expression: anything but a line terminator. -/
def is_any (c : Char) : Bool := !(c == '\n' || c == '\r')

/-- A `std::ssub_match`: whether the group took part in the match, and the
text it matched (`str()` is empty for a group that did not). -/
structure sub_match where
  matched : Bool
  text : List Char
deriving DecidableEq, Repr

/-- `sub_match::str()`, also the implicit conversion to `std::string`. -/
def sub_match.str (s : sub_match) : String := String.mk s.text

/-- A group that took part in the match. -/
def sub_match.of (t : List Char) : sub_match := ⟨true, t⟩

/-- A group that did not take part in the match. -/
def sub_match.unmatched : sub_match := ⟨false, []⟩

/-- A `std::smatch` after a successful `std::regex_match`: entry 0 is the whole
match, entry `i` is capture group `i`.  The standard library gives it one
entry per capture group of the expression whether or not the group took part
in the match. -/
abbrev smatch := List sub_match

/-- `m.size()`. -/
def smatch.size (m : smatch) : Nat := m.length

/-- `m[i]`; an index past the end yields an unmatched sub-match. -/
def smatch.at (m : smatch) (i : Nat) : sub_match := m.getD i sub_match.unmatched

/-- Modelled from the spec: `replace_all(s, from, to)` of utility.h, which is
not among the translated files; by its name and by the comments at its call
sites (`1.72` becomes `1_72`) it replaces every occurrence of the pattern in
`s` by the replacement, scanning left to right. -/
def replace_all_chars (pat repl : List Char) : Nat → List Char → List Char
  | 0, s => s
  | _ + 1, [] => []
  | fuel + 1, c :: cs =>
    if pat ≠ [] ∧ pat.isPrefixOf (c :: cs) then
      repl ++ replace_all_chars pat repl fuel ((c :: cs).drop pat.length)
    else
      c :: replace_all_chars pat repl fuel cs

/-- Modelled from the spec: `replace_all` on strings, see
`replace_all_chars`. -/
def replace_all (s pat repl : String) : String :=
  String.mk (replace_all_chars pat.data repl.data s.data.length s.data)

/-! ## openssl.cpp -/

namespace openssl

/-- The regular expression of `openssl::parse_version`,
`(\d+)(?:\.(\d+)(?:\.(\d+)([a-zA-Z]+)?)?)?`, matched against the whole input
as `std::regex_match` does.  Digits, the dot and letters are disjoint
classes, so each `+` can only take the longest run. -/
def version_regex_match (s : List Char) : Option smatch :=
  let d1 := s.takeWhile is_digit
  let r1 := s.dropWhile is_digit
  if d1 = [] then none
  else match r1 with
    | [] => some [.of s, .of d1, .unmatched, .unmatched, .unmatched]
    | c1 :: t1 =>
      let d2 := t1.takeWhile is_digit
      let r2 := t1.dropWhile is_digit
      if c1 ≠ '.' ∨ d2 = [] then none
      else match r2 with
        | [] => some [.of s, .of d1, .of d2, .unmatched, .unmatched]
        | c2 :: t2 =>
          let d3 := t2.takeWhile is_digit
          let r3 := t2.dropWhile is_digit
          let tag := r3.takeWhile is_letter
          let r4 := r3.dropWhile is_letter
          if c2 ≠ '.' ∨ d3 = [] ∨ r4 ≠ [] then none
          else if tag = [] then some [.of s, .of d1, .of d2, .of d3, .unmatched]
          else some [.of s, .of d1, .of d2, .of d3, .of tag]

/-- `openssl::version()`. -/
def version (cf : conf) : String := cf.version "openssl"

/-- `openssl::prebuilt()`. -/
def prebuilt : Bool := false

/-- `openssl::source_path()`. -/
def source_path (cf : conf) : fs_path :=
  cf.path_build.join ("openssl-" ++ version cf)

/-- `openssl::parse_version()`. -/
def parse_version (cf : conf) : Except String smatch :=
  match version_regex_match (version cf).data with
  | some m => .ok m
  | none => .error ("bad openssl version '" ++ version cf ++ "'")

/-- One pass of the loop body of `openssl::version_no_tags`. -/
def version_no_tags_step (m : smatch) (s : String) (i : Nat) : String :=
  (if s ≠ "" then s ++ "." else s) ++ (m.at i).str

/-- `openssl::version_no_tags()`: the loop runs `i` over `1 .. count-1`. -/
def version_no_tags (cf : conf) : Except String String :=
  match parse_version cf with
  | .error e => .error e
  | .ok m =>
    let count := min m.size 4
    .ok ((List.range' 1 (count - 1)).foldl (version_no_tags_step m) "")

/-- `openssl::version_no_minor_underscores()`. -/
def version_no_minor_underscores (cf : conf) : Except String String :=
  match parse_version cf with
  | .error e => .error e
  | .ok m =>
    if m.size = 2 then .ok (m.at 1).str
    else .ok ((m.at 1).str ++ "_" ++ (m.at 2).str)

/-- `openssl::output_names()`. -/
def output_names (cf : conf) : Except String (List String) :=
  match version_no_minor_underscores cf with
  | .error e => .error e
  | .ok v => .ok ["libcrypto-" ++ v ++ "-x64", "libssl-" ++ v ++ "-x64"]

/-- The flags of the `jom` tool named in `install_engines`. -/
inductive jom_flag
  | single_job
  | allow_failure
deriving DecidableEq, Repr

/-- A `jom` tool: `jom()` followed by `.path`, `.target` and `.flag`, and the
exit code its run left in it. -/
structure jom where
  path : fs_path
  target : String
  flags : List jom_flag
  exit_code : Int
deriving DecidableEq, Repr

/-- `jom()`. -/
def jom.new : jom := ⟨[], "", [], 0⟩

/-- `result()`: the exit code of the last run. -/
def jom.result (j : jom) : Int := j.exit_code

/-- `.path(p)`. -/
def jom.set_path (j : jom) (p : fs_path) : jom := { j with path := p }

/-- `.target(t)`. -/
def jom.set_target (j : jom) (t : String) : jom := { j with target := t }

/-- `.flag(f)`. -/
def jom.flag (j : jom) (f : jom_flag) : jom := { j with flags := f :: j.flags }

/-- The tool of the retry loop of `install_engines`:
`jom().path(source_path()).target("install_engines").flag(jom::allow_failure)`. -/
def parallel_jom (cf : conf) : jom :=
  ((jom.new.set_path (source_path cf)).set_target "install_engines").flag .allow_failure

/-- The tool of the last run of `install_engines`:
`jom().path(source_path()).target("install_engines").flag(jom::single_job)`. -/
def single_job_jom (cf : conf) : jom :=
  ((jom.new.set_path (source_path cf)).set_target "install_engines").flag .single_job

/-- The outside world as `install_engines` sees it: `exit_codes n` is the exit
code the `n`-th run of jom (counting from 0) will end with, and `runs` lists
the runs made so far, oldest first, each with its exit code. -/
structure jom_world where
  exit_codes : Nat → Int
  runs : List (jom × Int)

/-- Modelled from the spec: `task::run_tool_impl(&t)` on a `jom`, which is not
among the translated files.  It runs the tool, which leaves its exit code in
the tool; a run that exits non-zero fails the caller (a fatal error) unless
the tool carries the "allow non-zero exit without failing the caller" flag.
The run is logged with the tool as it was given. -/
def run_tool_impl (t : jom) (w : jom_world) : Except String jom × jom_world :=
  let exit_code := w.exit_codes w.runs.length
  let w1 : jom_world := { w with runs := w.runs ++ [(t, exit_code)] }
  if exit_code ≠ 0 ∧ jom_flag.allow_failure ∉ t.flags then
    (.error "jom failed", w1)
  else
    (.ok { t with exit_code := exit_code }, w1)

/-- `task::run_tool(t)` of task.h on a `jom`:
`run_tool_impl(&t); return t.result();`. -/
def run_tool (t : jom) (w : jom_world) : Except String Int × jom_world :=
  match run_tool_impl t w with
  | (.error e, w1) => (.error e, w1)
  | (.ok t1, w1) => (.ok t1.result, w1)

/-- How the retry loop of `install_engines` ends: by `return` out of the
function, by a fatal error, or by running to its bound. -/
inductive loop_end
  | returned
  | failed (e : String)
  | fell_through
deriving DecidableEq, Repr

/-- The `for (int tries=0; tries<max_tries; ++tries)` loop of
`openssl::install_engines`, with `remaining = max_tries - tries`: each pass runs
the parallel jom and returns from the function when it exits with 0. -/
def install_engines_loop (cf : conf) : Nat → jom_world → loop_end × jom_world
  | 0, w => (.fell_through, w)
  | remaining + 1, w =>
    match run_tool (parallel_jom cf) w with
    | (.error e, w1) => (.failed e, w1)
    | (.ok exit_code, w1) =>
      if exit_code = 0 then (.returned, w1)
      else install_engines_loop cf remaining w1

/-- The constant `max_tries` of `openssl::install_engines`. -/
def max_tries : Nat := 3

/-- `openssl::install_engines()`. -/
def install_engines (cf : conf) (w : jom_world) : Except String Unit × jom_world :=
  match install_engines_loop cf max_tries w with
  | (.returned, w1) => (.ok (), w1)
  | (.failed e, w1) => (.error e, w1)
  | (.fell_through, w1) =>
    match run_tool (single_job_jom cf) w1 with
    | (.error e, w2) => (.error e, w2)
    | (.ok _, w2) => (.ok (), w2)

end openssl

/-! ## boost.cpp -/

/-- Modelled from the spec: the clean flags, whose declaration is outside the
translated files: "a combinable set of four independent flags: redownload,
reextract, reconfigure, rebuild". -/
structure clean where
  redownload : Bool
  reextract : Bool
  reconfigure : Bool
  rebuild : Bool
deriving DecidableEq, Repr

/-- The four enumerators `clean::redownload` ... `clean::rebuild`. -/
inductive clean_flag
  | redownload
  | reextract
  | reconfigure
  | rebuild
deriving DecidableEq, Repr

/-- Modelled from the spec: `is_set(c, flag)`, whether the flag is in the
set `c`. -/
def is_set (c : clean) : clean_flag → Bool
  | .redownload => c.redownload
  | .reextract => c.reextract
  | .reconfigure => c.reconfigure
  | .rebuild => c.rebuild

/-- The `op::flags` argument of the filesystem helpers; the tasks pass
`op::optional` or nothing. -/
inductive op_flags
  | noflags
  | optional
deriving DecidableEq, Repr

/-- What a task does to the outside world while cleaning:
`run_tool(downloader(u, downloader::clean))`, `op::delete_directory(cx, p, f)`
and `op::delete_file(cx, p, f)`. -/
inductive effect
  | downloader_clean (u : url)
  | delete_directory (p : fs_path) (f : op_flags)
  | delete_file (p : fs_path) (f : op_flags)
deriving DecidableEq, Repr

/-- A run of task code: the effects it performed, in program order, and
whether it ran to its end (`ok`) or was cut short by `bail_out` (`error`). -/
structure task_run (α : Type) where
  result : Except String α
  effects : List effect

/-- A run that does nothing and yields `a`. -/
def task_run.pure {α : Type} (a : α) : task_run α := ⟨.ok a, []⟩

/-- Sequencing: the second part runs only if the first ran to its end. -/
def task_run.bind {α β : Type} (m : task_run α) (f : α → task_run β) : task_run β :=
  match m.result with
  | .ok a => ⟨(f a).result, m.effects ++ (f a).effects⟩
  | .error e => ⟨.error e, m.effects⟩

instance : Monad task_run where
  pure := task_run.pure
  bind := task_run.bind

/-- A computation that can only bail out, run inside task code. -/
def task_run.of_except {α : Type} (x : Except String α) : task_run α := ⟨x, []⟩

/-- Performing one effect. -/
def task_run.emit (e : effect) : task_run Unit := ⟨.ok (), [e]⟩

namespace op

/-- A call `op::delete_directory(cx(), p, f)`. -/
def delete_directory (p : fs_path) (f : op_flags) : task_run Unit :=
  task_run.emit (.delete_directory p f)

/-- A call `op::delete_file(cx(), p, f)`. -/
def delete_file (p : fs_path) (f : op_flags) : task_run Unit :=
  task_run.emit (.delete_file p f)

end op

/-- A call `run_tool(downloader(u, downloader::clean))`. -/
def run_tool_downloader_clean (u : url) : task_run Unit :=
  task_run.emit (.downloader_clean u)

namespace boost

/-- `boost::version_info`. -/
structure version_info where
  major : String
  minor : String
  patch : String
  rest : String
deriving DecidableEq, Repr

/-- `boost::version()`. -/
def version (cf : conf) : String := cf.version "boost"

/-- `boost::version_vs()`. -/
def version_vs (cf : conf) : String := cf.version "boost_vs"

/-- `boost::prebuilt()`. -/
def prebuilt (cf : conf) : Bool := cf.is_prebuilt "boost"

/-- The regular expression of `boost::parsed_version`,
`(\d+)\.(\d+)(?:\.(\d+)(?:-(.+))?)?`, matched against the whole input as
`std::regex_match` does. -/
def version_regex_match (s : List Char) : Option smatch :=
  let d1 := s.takeWhile is_digit
  let r1 := s.dropWhile is_digit
  if d1 = [] then none
  else match r1 with
    | [] => none
    | c1 :: t1 =>
      let d2 := t1.takeWhile is_digit
      let r2 := t1.dropWhile is_digit
      if c1 ≠ '.' ∨ d2 = [] then none
      else match r2 with
        | [] => some [.of s, .of d1, .of d2, .unmatched, .unmatched]
        | c2 :: t2 =>
          let d3 := t2.takeWhile is_digit
          let r3 := t2.dropWhile is_digit
          if c2 ≠ '.' ∨ d3 = [] then none
          else match r3 with
            | [] => some [.of s, .of d1, .of d2, .of d3, .unmatched]
            | c3 :: t3 =>
              if c3 ≠ '-' ∨ t3 = [] ∨ t3.all is_any = false then none
              else some [.of s, .of d1, .of d2, .of d3, .of t3]

/-- `boost::parsed_version()`. -/
def parsed_version (cf : conf) : Except String version_info :=
  match version_regex_match (version cf).data with
  | some m => .ok ⟨(m.at 1).str, (m.at 2).str, (m.at 3).str, (m.at 4).str⟩
  | none => .error ("bad boost version '" ++ version cf ++ "'")

/-- `boost_version_no_tags()`: `1.72[.1]`. -/
def boost_version_no_tags (cf : conf) : Except String String :=
  match parsed_version cf with
  | .error e => .error e
  | .ok v =>
    let s := v.major ++ "." ++ v.minor
    if v.patch ≠ "" then .ok (s ++ ("." ++ v.patch)) else .ok s

/-- `boost_version_no_tags_underscores()`. -/
def boost_version_no_tags_underscores (cf : conf) : Except String String :=
  match boost_version_no_tags cf with
  | .error e => .error e
  | .ok s => .ok (replace_all s "." "_")

/-- `boost_version_all_underscores()`: `boost_1_72[_0[_b1_rc1]]`. -/
def boost_version_all_underscores (cf : conf) : Except String String :=
  match parsed_version cf with
  | .error e => .error e
  | .ok v =>
    let s := "boost_" ++ v.major ++ "_" ++ v.minor
    let s := if v.patch ≠ "" then s ++ ("_" ++ v.patch) else s
    let s := if v.rest ≠ "" then s ++ ("_" ++ replace_all v.rest "-" "_") else s
    .ok s

/-- `address_model_for_arch(a)`; the `default:` branch of the switch, which
bails out, is not reachable from an enumerator. -/
def address_model_for_arch : arch → String
  | .x86 => "32"
  | .x64 => "64"
  | .dont_care => "64"

/-- `boost::source_path()`, for example `build/boost_1_74_0`. -/
def source_path (cf : conf) : Except String fs_path :=
  match boost_version_no_tags_underscores cf with
  | .error e => .error e
  | .ok s => .ok (cf.path_build.join ("boost_" ++ s))

/-- `config_jam_file()`. -/
def config_jam_file (cf : conf) : Except String fs_path :=
  match source_path cf with
  | .error e => .error e
  | .ok sp => .ok (sp.join "user-config-64.jam")

/-- `prebuilt_url()`. -/
def prebuilt_url (cf : conf) : url :=
  let underscores := replace_all (version cf) "." "_"
  cf.make_prebuilt_url ("boost_prebuilt_" ++ underscores ++ ".7z")

/-- `source_url()`. -/
def source_url (cf : conf) : Except String url :=
  match boost_version_no_tags cf with
  | .error e => .error e
  | .ok no_tags =>
    match boost_version_all_underscores cf with
    | .error e => .error e
    | .ok all_underscores =>
      .ok ("https://boostorg.jfrog.io/artifactory/main/release/" ++
        no_tags ++ "/source/" ++ all_underscores ++ ".zip")

/-- `b2_exe()`. -/
def b2_exe (cf : conf) : Except String fs_path :=
  match source_path cf with
  | .error e => .error e
  | .ok sp => .ok (sp.join "b2.exe")

/-- The local `lib` of `boost::root_lib_path(a)`:
`"lib" + address_model_for_arch(a) + "-msvc-" + version_vs()`. -/
def root_lib_name (cf : conf) (a : arch) : String :=
  "lib" ++ address_model_for_arch a ++ "-msvc-" ++ version_vs cf

/-- `boost::root_lib_path(a)`, for example
`build/boost_1_74_0/lib64-msvc-14.2`. -/
def root_lib_path (cf : conf) (a : arch) : Except String fs_path :=
  let lib := root_lib_name cf a
  match source_path cf with
  | .error e => .error e
  | .ok sp => .ok (sp.join lib)

/-- `boost::lib_path(a)`. -/
def lib_path (cf : conf) (a : arch) : Except String fs_path :=
  match root_lib_path cf a with
  | .error e => .error e
  | .ok p => .ok (p.join "lib")

/-- `boost::do_clean(c)`. -/
def do_clean (cf : conf) (c : clean) : task_run Unit := do
  if is_set c .redownload then
    -- delete downloaded file
    if prebuilt cf then
      run_tool_downloader_clean (prebuilt_url cf)
    else
      let u ← task_run.of_except (source_url cf)
      run_tool_downloader_clean u
  if is_set c .reextract then
    -- delete the whole thing
    let sp ← task_run.of_except (source_path cf)
    op.delete_directory sp .optional
    -- no need for the rest
    return
  -- those do not make sense for prebuilts
  if !prebuilt cf then
    if is_set c .reconfigure then
      -- delete bin and b2.exe to make sure bootstrap runs again
      let sp ← task_run.of_except (source_path cf)
      op.delete_directory (sp.join "bin.v2") .optional
      let b2 ← task_run.of_except (b2_exe cf)
      op.delete_file b2 .optional
      -- delete jam files
      let jam ← task_run.of_except (config_jam_file cf)
      op.delete_file jam .optional
      let sp2 ← task_run.of_except (source_path cf)
      op.delete_file (sp2.join "project-config.jam") .optional
    if is_set c .rebuild then
      -- delete libs
      let l86 ← task_run.of_except (root_lib_path cf .x86)
      op.delete_directory l86 .optional
      let l64 ← task_run.of_except (root_lib_path cf .x64)
      op.delete_directory l64 .optional

end boost

/-! ## The filesystem the clean effects act on -/

/-- What a filesystem entry is. -/
inductive file_kind
  | regular
  | directory
deriving DecidableEq, Repr

/-- One entry of a filesystem. -/
structure fs_entry where
  path : fs_path
  kind : file_kind
deriving DecidableEq, Repr

/-- A filesystem state: the entries that exist, each under its resolved
path. -/
abbrev filesystem := List fs_entry

/-- `fs::is_directory(p)`: whether the location `p` names is a directory. -/
def filesystem.is_directory (fs : filesystem) (p : fs_path) : Bool :=
  fs.any fun e => decide (e.path = p.resolve ∧ e.kind = .directory)

/-- `fs::is_regular_file(p)`: whether the location `p` names is a regular
file. -/
def filesystem.is_regular_file (fs : filesystem) (p : fs_path) : Bool :=
  fs.any fun e => decide (e.path = p.resolve ∧ e.kind = .regular)

/-- Modelled from the spec: `op::delete_directory(cx, p, f)`, which is not
among the translated files ("optional delete of a file or directory";
"deletions are best-effort/optional, not asserted to exist").  The directory
at the location `p` names, if it exists, is removed with everything below it;
when there is no such directory the call does nothing if `f` is `optional`
and is a fatal error otherwise. -/
def filesystem.delete_directory (fs : filesystem) (p : fs_path) (f : op_flags) :
    Except String filesystem :=
  if fs.is_directory p then
    .ok (fs.filter fun e => !(p.resolve.isPrefixOf e.path))
  else
    match f with
    | .optional => .ok fs
    | .noflags => .error "cannot delete directory: not found"

/-- Modelled from the spec: `op::delete_file(cx, p, f)`, which is not among
the translated files.  The regular file at the location `p` names, if it
exists, is removed; when there is no such file the call does nothing if `f`
is `optional` and is a fatal error otherwise. -/
def filesystem.delete_file (fs : filesystem) (p : fs_path) (f : op_flags) :
    Except String filesystem :=
  if fs.is_regular_file p then
    .ok (fs.filter fun e => !decide (e.path = p.resolve ∧ e.kind = .regular))
  else
    match f with
    | .optional => .ok fs
    | .noflags => .error "cannot delete file: not found"

/-- Modelled from the spec: what one effect does to the filesystem.  The
downloader is not among the translated files; in clean mode it is to "delete
the downloaded archive/artifact", the file `cache_file u` the archive of `u`
was downloaded to, if it is there. -/
def filesystem.apply (cache_file : url → fs_path) (fs : filesystem) :
    effect → Except String filesystem
  | .downloader_clean u => fs.delete_file (cache_file u) .optional
  | .delete_directory p f => fs.delete_directory p f
  | .delete_file p f => fs.delete_file p f

/-- The effects of a run applied in order; the first fatal error ends it. -/
def filesystem.apply_all (cache_file : url → fs_path) :
    filesystem → List effect → Except String filesystem
  | fs, [] => .ok fs
  | fs, e :: es =>
    match fs.apply cache_file e with
    | .error x => .error x
    | .ok fs1 => filesystem.apply_all cache_file fs1 es

/-- A whole run of task code against a filesystem: the state it leaves, or the
fatal error that ended it. -/
def task_run.on_filesystem (r : task_run Unit) (cache_file : url → fs_path)
    (fs : filesystem) : Except String filesystem :=
  match fs.apply_all cache_file r.effects with
  | .error x => .error x
  | .ok fs1 =>
    match r.result with
    | .error x => .error x
    | .ok _ => .ok fs1

/-! ## Example configurations -/

/-- A configuration with the given boost version, Visual Studio version for
boost, openssl version and prebuilt setting, building under `build`. -/
def example_conf (boost_version boost_vs openssl_version : String) (pb : Bool) : conf where
  version := fun name =>
    if name = "boost" then boost_version
    else if name = "boost_vs" then boost_vs
    else openssl_version
  is_prebuilt := fun _ => pb
  path_build := ["build"]
  make_prebuilt_url := fun file => "https://example.org/prebuilt/" ++ file

/-! ## Predicates on effects used by the statements -/

/-- Whether a deletion is issued as optional.  The downloader in clean mode
only ever deletes optionally. -/
def effect.is_optional : effect → Bool
  | .downloader_clean _ => true
  | .delete_directory _ f => decide (f = .optional)
  | .delete_file _ f => decide (f = .optional)

/-- Whether what an effect would delete is there. -/
def effect.target_present (cache_file : url → fs_path) (fs : filesystem) : effect → Bool
  | .downloader_clean u => fs.is_regular_file (cache_file u)
  | .delete_directory p _ => fs.is_directory p
  | .delete_file p _ => fs.is_regular_file p

/-- Where the example downloader keeps the archive of a url. -/
def example_cache_file (u : url) : fs_path := ["cache", u]

/-- A filesystem with an extracted, bootstrapped and partly built boost 1.74.0
and its downloaded archive. -/
def example_filesystem : filesystem :=
  [⟨["build"], .directory⟩,
   ⟨["build", "boost_1_74_0"], .directory⟩,
   ⟨["build", "boost_1_74_0", "bootstrap.bat"], .regular⟩,
   ⟨["build", "boost_1_74_0", "b2.exe"], .regular⟩,
   ⟨["build", "boost_1_74_0", "bin.v2"], .directory⟩,
   ⟨["build", "boost_1_74_0", "bin.v2", "config.log"], .regular⟩,
   ⟨["build", "boost_1_74_0", "lib64-msvc-14.2"], .directory⟩,
   ⟨["build", "boost_1_74_0", "lib64-msvc-14.2", "lib"], .directory⟩,
   ⟨["cache"], .directory⟩,
   ⟨example_cache_file
      "https://boostorg.jfrog.io/artifactory/main/release/1.74.0/source/boost_1_74_0.zip",
    .regular⟩]

namespace task

/-- An entry of the vector given to `parallel`: a name and a function.  The
`std::function` is stood for by an identifier. -/
structure named_fn where
  name : String
  f : Nat
deriving DecidableEq, Repr

/-- Where a thread is in its body, the lambda
`[this, name, f] { threaded_run(name, f); }`: not yet begun, inside the call
of `threaded_run`, or returned from the body. -/
inductive thread_pc
  | started
  | in_threaded_run
  | exited
deriving DecidableEq, Repr

/-- A `std::thread` of the vector `ts`: the `name` and `f` its lambda captured,
where it is in its body, the calls of `threaded_run` it has made so far (each
by its arguments), and whether `join()` on it has returned. -/
structure thread where
  entry : named_fn
  pc : thread_pc
  calls : List named_fn
  joined : Bool
deriving DecidableEq, Repr

/-- `std::thread([this, name, f] { threaded_run(name, f); })`: a thread just
started. -/
def thread.start (e : named_fn) : thread := ⟨e, .started, [], false⟩

/-- Where the calling thread is in `parallel`: in the first loop with the
entries of `v` still to visit, in the second loop about to join `ts[i]`, or
returned. -/
inductive main_pc
  | spawning (todo : List named_fn)
  | joining (i : Nat)
  | returned
deriving DecidableEq, Repr

/-- The state of a call of `parallel`. -/
structure par_state where
  pc : main_pc
  ts : List thread
deriving DecidableEq, Repr

/-- Who takes the next step: the thread that called `parallel`, or the
thread `ts[k]`. -/
inductive actor
  | main
  | thread (k : Nat)
deriving DecidableEq, Repr

/-- One step of thread `t` through its body: it calls
`threaded_run(name, f)`, then returns from it and exits. -/
def thread.step (t : thread) : thread :=
  match t.pc with
  | .started => { t with pc := .in_threaded_run, calls := t.calls ++ [t.entry] }
  | .in_threaded_run => { t with pc := .exited }
  | .exited => t

/-- One step of the body of `task::parallel` by the calling thread.  In the
first loop it starts a thread for the next entry and pushes it on `ts`; in the
second loop `ts[i].join()` returns once `ts[i]` has exited and blocks (the
state stays as it is) until then; after the last thread the function
returns. -/
def main_step (s : par_state) : par_state :=
  match s.pc with
  | .spawning [] => { s with pc := .joining 0 }
  | .spawning (e :: todo) => ⟨.spawning todo, s.ts ++ [thread.start e]⟩
  | .joining i =>
    match s.ts[i]? with
    | none => { s with pc := .returned }
    | some t =>
      if t.pc = .exited then ⟨.joining (i + 1), s.ts.set i { t with joined := true }⟩
      else s
  | .returned => s

/-- One step of the whole system by the chosen actor. -/
def step (s : par_state) : actor → par_state
  | .main => main_step s
  | .thread k =>
    match s.ts[k]? with
    | none => s
    | some t => { s with ts := s.ts.set k t.step }

/-- The steps of a schedule, taken in order. -/
def run (s : par_state) (schedule : List actor) : par_state :=
  schedule.foldl step s

/-- `task::parallel(v)` under a schedule: the state reached from the entry of
the function, with `ts` empty. -/
def parallel (v : List named_fn) (schedule : List actor) : par_state :=
  run ⟨.spawning v, []⟩ schedule

/-- A thread has called `threaded_run` never before it began its body and
exactly once, on its own entry, after that. -/
def thread.ok (t : thread) : Prop :=
  match t.pc with
  | .started => t.calls = []
  | .in_threaded_run => t.calls = [t.entry]
  | .exited => t.calls = [t.entry]

/-- The invariant of `parallel` on `v`: the threads started so far are those of
the entries visited so far, in order; every thread is `ok`; in the second
loop the threads before `ts[i]` have exited and been joined; on return all
have. -/
def inv (v : List named_fn) (s : par_state) : Prop :=
  (∀ t ∈ s.ts, t.ok) ∧
  match s.pc with
  | .spawning todo => s.ts.map (fun t => t.entry) ++ todo = v
  | .joining i =>
    s.ts.map (fun t => t.entry) = v ∧
      ∀ k t, s.ts[k]? = some t → k < i → t.pc = .exited ∧ t.joined = true
  | .returned =>
    s.ts.map (fun t => t.entry) = v ∧ ∀ t ∈ s.ts, t.pc = .exited ∧ t.joined = true

end task

/-! # Theorems -/

/-! ## Paths: components, joining, resolving -/

/-- A component that has begun is always delivered, and first. -/
theorem split_components_head (s cur : List Char) (h : cur ≠ []) :
    ∃ t tail, split_components cur s = (cur ++ t) :: tail := by
  induction s generalizing cur with
  | nil => exact ⟨[], [], by simp [split_components, h]⟩
  | cons c cs ih =>
    unfold split_components
    by_cases hc : is_separator c = true
    · exact ⟨[], split_components [] cs, by simp [hc, h]⟩
    · obtain ⟨t, tail, ht⟩ := ih (cur ++ [c]) (by simp)
      exact ⟨c :: t, tail, by simp [hc, ht]⟩

/-- A text without separators is one component. -/
theorem split_components_single (s cur : List Char) (hs : s.all (fun c => !is_separator c) = true)
    (h : cur ++ s ≠ []) : split_components cur s = [cur ++ s] := by
  induction s generalizing cur with
  | nil => simpa [split_components] using h
  | cons c cs ih =>
    simp only [List.all_cons, Bool.and_eq_true, Bool.not_eq_true'] at hs
    unfold split_components
    simp only [hs.1, Bool.false_eq_true, if_false]
    rw [ih (cur ++ [c]) hs.2 (by simp)]
    simp

/-- The components of a name that begins with a character other than a
separator: there is a first one, and it begins with that character. -/
theorem path_components_head (name : String) (c : Char) (rest : List Char)
    (hd : name.data = c :: rest) (hc : is_separator c = false) :
    ∃ t tail, path_components name = String.mk (c :: t) :: tail := by
  unfold path_components
  rw [hd]
  unfold split_components
  simp only [hc, Bool.false_eq_true, if_false, List.nil_append]
  obtain ⟨t, tail, ht⟩ := split_components_head rest [c] (by simp)
  exact ⟨t, tail.map String.mk, by simp [ht]⟩

/-- Joining such a name appends its components. -/
theorem fs_path.join_of_head (p : fs_path) (name : String) (c : Char) (rest : List Char)
    (hd : name.data = c :: rest) (hc : is_separator c = false) :
    p.join name = p ++ path_components name := by
  unfold fs_path.join
  rw [hd]
  simp [hc]

/-- Joining such a name gives another path. -/
theorem fs_path.join_ne_self (p : fs_path) (name : String) (c : Char) (rest : List Char)
    (hd : name.data = c :: rest) (hc : is_separator c = false) : p.join name ≠ p := by
  rw [fs_path.join_of_head p name c rest hd hc]
  obtain ⟨t, tail, ht⟩ := path_components_head name c rest hd hc
  rw [ht]
  intro hcontra
  have := congrArg List.length hcontra
  simp at this

namespace openssl

/-- Whatever a successful `regex_match` of the openssl version expression
leaves in the `smatch`, it has five entries, and group 1 is not empty. -/
theorem version_regex_match_shape (s : List Char) (m : smatch)
    (h : version_regex_match s = some m) :
    ∃ g0 g1 g2 g3 g4, m = [g0, g1, g2, g3, g4] ∧ g1.text ≠ [] := by
  unfold version_regex_match at h
  simp only [] at h
  split_ifs at h with h1
  split at h
  · simp only [Option.some.injEq] at h
    exact ⟨_, _, _, _, _, h.symm, by simpa [sub_match.of] using h1⟩
  · split_ifs at h with h2
    split at h
    · simp only [Option.some.injEq] at h
      exact ⟨_, _, _, _, _, h.symm, by simpa [sub_match.of] using h1⟩
    · split_ifs at h with h3 h4
      · simp only [Option.some.injEq] at h
        exact ⟨_, _, _, _, _, h.symm, by simpa [sub_match.of] using h1⟩
      · simp only [Option.some.injEq] at h
        exact ⟨_, _, _, _, _, h.symm, by simpa [sub_match.of] using h1⟩

/-- For every accepted version `m.size()` is 5. -/
theorem parse_version_size (cf : conf) (m : smatch) (h : parse_version cf = .ok m) :
    m.size = 5 := by
  unfold parse_version at h
  split at h
  · rename_i m1 hm
    obtain ⟨g0, g1, g2, g3, g4, rfl, -⟩ := version_regex_match_shape _ _ hm
    cases h
    rfl
  · cases h

/-- For every accepted version `version_no_tags` joins groups 1, 2 and 3 with
two dots, whether or not groups 2 and 3 took part in the match. -/
theorem version_no_tags_eq (cf : conf) (m : smatch) (h : parse_version cf = .ok m) :
    version_no_tags cf =
      .ok ((m.at 1).str ++ "." ++ (m.at 2).str ++ "." ++ (m.at 3).str) := by
  have hm : ∃ g0 g1 g2 g3 g4, m = [g0, g1, g2, g3, g4] ∧ g1.text ≠ [] := by
    unfold parse_version at h
    split at h
    · rename_i m1 hm
      cases h
      exact version_regex_match_shape _ _ hm
    · cases h
  obtain ⟨g0, g1, g2, g3, g4, rfl, hg1⟩ := hm
  have hne : g1.str ≠ "" := by
    intro hc
    apply hg1
    have := congrArg String.data hc
    simpa [sub_match.str] using this
  have hne2 : g1.str ++ "." ++ g2.str ≠ "" := by
    intro hc
    have := congrArg String.data hc
    simp [sub_match.str] at this
  simp only [version_no_tags, h, smatch.size, List.length_cons, List.length_nil]
  simp [List.range', version_no_tags_step, smatch.at, hne, hne2]

/-- For every accepted version `version_no_minor_underscores` takes the
second branch: group 1, an underscore, group 2. -/
theorem version_no_minor_underscores_eq (cf : conf) (m : smatch)
    (h : parse_version cf = .ok m) :
    version_no_minor_underscores cf = .ok ((m.at 1).str ++ "_" ++ (m.at 2).str) := by
  have hs := parse_version_size cf m h
  simp [version_no_minor_underscores, h, hs]

/-- C9: `version_no_tags` at the versions `1.1` and `1`, which
`parse_version` accepts: the result ends in a dot, resp. in two dots, where
the numeric components present are `1.1`, resp. `1`; at `1.1.1d` the tag is
dropped and the result is `1.1.1`. -/
theorem version_no_tags_trailing_dots :
    parse_version (example_conf "" "" "1.1" false) =
        .ok [.of "1.1".data, .of "1".data, .of "1".data, .unmatched, .unmatched] ∧
      version_no_tags (example_conf "" "" "1.1" false) = .ok "1.1." ∧
      version_no_tags (example_conf "" "" "1" false) = .ok "1.." ∧
      version_no_tags (example_conf "" "" "1.1.1d" false) = .ok "1.1.1" :=
  ⟨rfl, rfl, rfl, rfl⟩

/-- C10: `version_no_minor_underscores` at the version `3`, which
`parse_version` accepts and which has no minor component: the result is `3_`,
not `3`, and both of `output_names` have an underscore right before `-x64`;
at `1.1.1d` the result is `1_1`. -/
theorem version_no_minor_underscores_trailing_underscore :
    parse_version (example_conf "" "" "3" false) =
        .ok [.of "3".data, .of "3".data, .unmatched, .unmatched, .unmatched] ∧
      version_no_minor_underscores (example_conf "" "" "3" false) = .ok "3_" ∧
      output_names (example_conf "" "" "3" false) =
        .ok ["libcrypto-3_-x64", "libssl-3_-x64"] ∧
      version_no_minor_underscores (example_conf "" "" "1.1.1d" false) = .ok "1_1" :=
  ⟨rfl, rfl, rfl, rfl⟩

end openssl

/-! ## openssl: the retry policy of `install_engines` -/

namespace openssl

/-- The flags of the two kinds of jom run. -/
theorem jom_flags (cf : conf) :
    (parallel_jom cf).flags = [.allow_failure] ∧ (single_job_jom cf).flags = [.single_job] :=
  ⟨rfl, rfl⟩

/-- C2: when the first zero exit code of the parallel jom run comes at attempt
`k`, with `1 ≤ k ≤ 3`, `install_engines` started from no runs ends normally
after exactly `k` runs, the `i`-th of which is the parallel run ending with
the `i`-th exit code; every run carries `allow_failure`, none carries
`single_job`, and the last run ended with exit code 0. -/
theorem install_engines_retry_until_success (cf : conf) (exit_codes : Nat → Int) (k : Nat)
    (hk1 : 1 ≤ k) (hk3 : k ≤ 3)
    (hfail : ∀ i, i < k - 1 → exit_codes i ≠ 0) (hzero : exit_codes (k - 1) = 0) :
    (install_engines cf ⟨exit_codes, []⟩).1 = .ok () ∧
      (install_engines cf ⟨exit_codes, []⟩).2.runs =
        (List.range k).map (fun i => (parallel_jom cf, exit_codes i)) ∧
      (install_engines cf ⟨exit_codes, []⟩).2.runs.length = k ∧
      (∀ r ∈ (install_engines cf ⟨exit_codes, []⟩).2.runs,
        jom_flag.allow_failure ∈ r.1.flags ∧ jom_flag.single_job ∉ r.1.flags) ∧
      (install_engines cf ⟨exit_codes, []⟩).2.runs.getLast?.map Prod.snd = some 0 := by
  have hpf := (jom_flags cf).1
  have hruns : (install_engines cf ⟨exit_codes, []⟩).1 = .ok () ∧
      (install_engines cf ⟨exit_codes, []⟩).2.runs =
        (List.range k).map (fun i => (parallel_jom cf, exit_codes i)) := by
    interval_cases k
    · simp at hzero
      simp [install_engines, install_engines_loop, max_tries, run_tool, run_tool_impl,
        jom.result, hpf, hzero, List.range, List.range.loop]
    · have h0 : exit_codes 0 ≠ 0 := hfail 0 (by omega)
      simp at hzero
      simp [install_engines, install_engines_loop, max_tries, run_tool, run_tool_impl,
        jom.result, hpf, hzero, h0, List.range, List.range.loop]
    · have h0 : exit_codes 0 ≠ 0 := hfail 0 (by omega)
      have h1 : exit_codes 1 ≠ 0 := hfail 1 (by omega)
      simp at hzero
      simp [install_engines, install_engines_loop, max_tries, run_tool, run_tool_impl,
        jom.result, hpf, hzero, h0, h1, List.range, List.range.loop]
  obtain ⟨hres, hr⟩ := hruns
  refine ⟨hres, hr, by simp [hr], ?_, ?_⟩
  · intro r hmem
    rw [hr] at hmem
    simp only [List.mem_map] at hmem
    obtain ⟨i, -, rfl⟩ := hmem
    simp [hpf]
  · rw [hr]
    obtain ⟨j, rfl⟩ : ∃ j, k = j + 1 := ⟨k - 1, by omega⟩
    simp only [Nat.add_sub_cancel] at hzero
    simp [List.range_succ, hzero]

/-- Witness of C2: two failures, then success at the third attempt. -/
theorem install_engines_retry_until_success_witness :
    (install_engines (example_conf "" "" "1.1.1d" false)
        ⟨fun n => if n = 2 then 0 else 1, []⟩).1 = .ok () ∧
      (install_engines (example_conf "" "" "1.1.1d" false)
        ⟨fun n => if n = 2 then 0 else 1, []⟩).2.runs.length = 3 :=
  have h := install_engines_retry_until_success (example_conf "" "" "1.1.1d" false)
    (fun n => if n = 2 then 0 else 1) 3 (by decide) (by decide)
    (by intro i hi; interval_cases i <;> decide) (by decide)
  ⟨h.1, h.2.2.1⟩

/-- C3: when the first three (parallel, `allow_failure`) runs all end non-zero,
`install_engines` started from no runs makes exactly four runs: the three
parallel ones and then one that carries `single_job` and not `allow_failure`;
nothing follows it, and `install_engines` ends normally exactly when that
fourth run exits with 0: its failure is fatal. -/
theorem install_engines_fallback_single_job (cf : conf) (exit_codes : Nat → Int)
    (h0 : exit_codes 0 ≠ 0) (h1 : exit_codes 1 ≠ 0) (h2 : exit_codes 2 ≠ 0) :
    (install_engines cf ⟨exit_codes, []⟩).2.runs =
        [(parallel_jom cf, exit_codes 0), (parallel_jom cf, exit_codes 1),
          (parallel_jom cf, exit_codes 2), (single_job_jom cf, exit_codes 3)] ∧
      (install_engines cf ⟨exit_codes, []⟩).2.runs.length = 4 ∧
      jom_flag.allow_failure ∈ (parallel_jom cf).flags ∧
      jom_flag.single_job ∉ (parallel_jom cf).flags ∧
      jom_flag.single_job ∈ (single_job_jom cf).flags ∧
      jom_flag.allow_failure ∉ (single_job_jom cf).flags ∧
      ((install_engines cf ⟨exit_codes, []⟩).1 = .ok () ↔ exit_codes 3 = 0) ∧
      (exit_codes 3 ≠ 0 → ∃ e, (install_engines cf ⟨exit_codes, []⟩).1 = .error e) := by
  have hpf := (jom_flags cf).1
  have hsf := (jom_flags cf).2
  have hr : (install_engines cf ⟨exit_codes, []⟩).2.runs =
        [(parallel_jom cf, exit_codes 0), (parallel_jom cf, exit_codes 1),
          (parallel_jom cf, exit_codes 2), (single_job_jom cf, exit_codes 3)] := by
    by_cases h3 : exit_codes 3 = 0
    · simp [install_engines, install_engines_loop, max_tries, run_tool, run_tool_impl,
        jom.result, hpf, hsf, h0, h1, h2, h3]
    · simp [install_engines, install_engines_loop, max_tries, run_tool, run_tool_impl,
        jom.result, hpf, hsf, h0, h1, h2, h3]
  refine ⟨hr, by simp [hr], by simp [hpf], by simp [hpf], by simp [hsf], by simp [hsf],
    ?_, ?_⟩
  · by_cases h3 : exit_codes 3 = 0
    · simp [install_engines, install_engines_loop, max_tries, run_tool, run_tool_impl,
        jom.result, hpf, hsf, h0, h1, h2, h3]
    · simp [install_engines, install_engines_loop, max_tries, run_tool, run_tool_impl,
        jom.result, hpf, hsf, h0, h1, h2, h3]
  · intro h3
    simp [install_engines, install_engines_loop, max_tries, run_tool, run_tool_impl,
        jom.result, hpf, hsf, h0, h1, h2, h3]

/-- Witness of C3: every run fails. -/
theorem install_engines_fallback_single_job_witness :
    (install_engines (example_conf "" "" "1.1.1d" false) ⟨fun _ => 1, []⟩).2.runs.length = 4 ∧
      ∃ e, (install_engines (example_conf "" "" "1.1.1d" false) ⟨fun _ => 1, []⟩).1 = .error e :=
  have h := install_engines_fallback_single_job (example_conf "" "" "1.1.1d" false)
    (fun _ => 1) (by decide) (by decide) (by decide)
  ⟨h.2.1, h.2.2.2.2.2.2.2 (by decide)⟩

end openssl

/-! ## boost: what `do_clean` does -/

namespace boost

/-- With a well-formed boost version, `source_path` is a directory right
below the build directory. -/
theorem source_path_ok (cf : conf) (v : version_info) (h : parsed_version cf = .ok v) :
    ∃ name, source_path cf = .ok (cf.path_build.join name) := by
  unfold source_path boost_version_no_tags_underscores boost_version_no_tags
  rw [h]
  by_cases hp : v.patch = "" <;> simp [hp]

/-- With a well-formed boost version, `source_url` is defined. -/
theorem source_url_ok (cf : conf) (v : version_info) (h : parsed_version cf = .ok v) :
    ∃ u, source_url cf = .ok u := by
  unfold source_url boost_version_all_underscores boost_version_no_tags
  rw [h]
  by_cases hp : v.patch = "" <;> simp [hp]

/-- The run of `do_clean`, spelled out, when the paths and urls it needs are
defined. -/
theorem do_clean_run (cf : conf) (c : clean) (sp : fs_path) (u : url)
    (hsp : source_path cf = .ok sp) (hu : source_url cf = .ok u) :
    (do_clean cf c).result = .ok () ∧
      (do_clean cf c).effects =
        (if is_set c .redownload then
          [effect.downloader_clean (if prebuilt cf then prebuilt_url cf else u)]
         else []) ++
        (if is_set c .reextract then [effect.delete_directory sp .optional]
         else if prebuilt cf then []
         else
          (if is_set c .reconfigure then
            [effect.delete_directory (sp.join "bin.v2") .optional,
             effect.delete_file (sp.join "b2.exe") .optional,
             effect.delete_file (sp.join "user-config-64.jam") .optional,
             effect.delete_file (sp.join "project-config.jam") .optional]
           else []) ++
          (if is_set c .rebuild then
            [effect.delete_directory
               (sp.join (root_lib_name cf .x86))
               .optional,
             effect.delete_directory
               (sp.join (root_lib_name cf .x64))
               .optional]
           else [])) := by
  obtain ⟨rd, re, rc, rb⟩ := c
  cases hpb : prebuilt cf <;> cases rd <;> cases re <;> cases rc <;> cases rb <;>
    simp [do_clean, is_set, hpb, hsp, hu, b2_exe, config_jam_file, root_lib_path,
      bind, pure, task_run.bind, task_run.pure, task_run.of_except, task_run.emit,
      op.delete_directory, op.delete_file, run_tool_downloader_clean]

/-- The name of a root lib directory begins with `l`. -/
theorem root_lib_name_data (cf : conf) (a : arch) :
    ∃ rest, (root_lib_name cf a).data = 'l' :: rest := by
  refine ⟨'i' :: 'b' :: ((address_model_for_arch a).data ++ "-msvc-".data ++
    (version_vs cf).data), ?_⟩
  simp [root_lib_name, String.data_append]

end boost

/-! ## The filesystem: deleting is monotone, and optional deleting cannot fail -/

theorem filesystem.is_directory_iff (fs : filesystem) (p : fs_path) :
    fs.is_directory p = true ↔ (⟨p.resolve, .directory⟩ : fs_entry) ∈ fs := by
  unfold filesystem.is_directory
  simp only [List.any_eq_true, decide_eq_true_eq]
  constructor
  · rintro ⟨⟨q, k⟩, hmem, hq, hk⟩
    simp only at hq hk
    subst hq hk
    exact hmem
  · intro hmem
    exact ⟨_, hmem, rfl, rfl⟩

theorem filesystem.is_regular_file_iff (fs : filesystem) (p : fs_path) :
    fs.is_regular_file p = true ↔ (⟨p.resolve, .regular⟩ : fs_entry) ∈ fs := by
  unfold filesystem.is_regular_file
  simp only [List.any_eq_true, decide_eq_true_eq]
  constructor
  · rintro ⟨⟨q, k⟩, hmem, hq, hk⟩
    simp only at hq hk
    subst hq hk
    exact hmem
  · intro hmem
    exact ⟨_, hmem, rfl, rfl⟩

/-- Applying an effect leaves a sublist of the entries: nothing is created. -/
theorem filesystem.apply_sublist (cache_file : url → fs_path) (fs fs1 : filesystem)
    (e : effect) (h : fs.apply cache_file e = .ok fs1) : ∀ x ∈ fs1, x ∈ fs := by
  intro x hx
  cases e with
  | downloader_clean u =>
    simp only [filesystem.apply, filesystem.delete_file] at h
    split_ifs at h
    · cases h; exact (List.mem_filter.mp hx).1
    · cases h; exact hx
  | delete_directory p f =>
    simp only [filesystem.apply, filesystem.delete_directory] at h
    split_ifs at h
    · cases h; exact (List.mem_filter.mp hx).1
    · cases f <;> cases h; exact hx
  | delete_file p f =>
    simp only [filesystem.apply, filesystem.delete_file] at h
    split_ifs at h
    · cases h; exact (List.mem_filter.mp hx).1
    · cases f <;> cases h; exact hx

/-- What is absent stays absent. -/
theorem effect.target_present_mono (cache_file : url → fs_path) (fs fs1 : filesystem)
    (hsub : ∀ x ∈ fs1, x ∈ fs) (e : effect)
    (h : e.target_present cache_file fs = false) :
    e.target_present cache_file fs1 = false := by
  cases e with
  | downloader_clean u =>
    simp only [effect.target_present, Bool.eq_false_iff, ne_eq,
      filesystem.is_regular_file_iff] at h ⊢
    exact fun hc => h (hsub _ hc)
  | delete_directory p f =>
    simp only [effect.target_present, Bool.eq_false_iff, ne_eq,
      filesystem.is_directory_iff] at h ⊢
    exact fun hc => h (hsub _ hc)
  | delete_file p f =>
    simp only [effect.target_present, Bool.eq_false_iff, ne_eq,
      filesystem.is_regular_file_iff] at h ⊢
    exact fun hc => h (hsub _ hc)

/-- After an effect, what it deletes is not there. -/
theorem filesystem.apply_target_absent (cache_file : url → fs_path) (fs fs1 : filesystem)
    (e : effect) (h : fs.apply cache_file e = .ok fs1) :
    e.target_present cache_file fs1 = false := by
  cases e with
  | downloader_clean u =>
    simp only [filesystem.apply, filesystem.delete_file] at h
    simp only [effect.target_present, Bool.eq_false_iff, ne_eq]
    split_ifs at h with hp
    · cases h
      rw [filesystem.is_regular_file_iff]
      simp [List.mem_filter]
    · cases h; exact hp
  | delete_directory p f =>
    simp only [filesystem.apply, filesystem.delete_directory] at h
    simp only [effect.target_present, Bool.eq_false_iff, ne_eq]
    split_ifs at h with hp
    · cases h
      rw [filesystem.is_directory_iff]
      simp [List.mem_filter]
    · cases f <;> cases h; exact hp
  | delete_file p f =>
    simp only [filesystem.apply, filesystem.delete_file] at h
    simp only [effect.target_present, Bool.eq_false_iff, ne_eq]
    split_ifs at h with hp
    · cases h
      rw [filesystem.is_regular_file_iff]
      simp [List.mem_filter]
    · cases f <;> cases h; exact hp

/-- An optional deletion of something that is not there changes nothing. -/
theorem filesystem.apply_absent (cache_file : url → fs_path) (fs : filesystem) (e : effect)
    (hopt : e.is_optional = true) (h : e.target_present cache_file fs = false) :
    fs.apply cache_file e = .ok fs := by
  cases e with
  | downloader_clean u =>
    simp only [effect.target_present] at h
    simp [filesystem.apply, filesystem.delete_file, h]
  | delete_directory p f =>
    simp only [effect.target_present] at h
    simp only [effect.is_optional, decide_eq_true_eq] at hopt
    simp [filesystem.apply, filesystem.delete_directory, h, hopt]
  | delete_file p f =>
    simp only [effect.target_present] at h
    simp only [effect.is_optional, decide_eq_true_eq] at hopt
    simp [filesystem.apply, filesystem.delete_file, h, hopt]

/-- An optional deletion never fails. -/
theorem filesystem.apply_optional_ok (cache_file : url → fs_path) (fs : filesystem)
    (e : effect) (hopt : e.is_optional = true) : ∃ fs1, fs.apply cache_file e = .ok fs1 := by
  cases e with
  | downloader_clean u =>
    simp only [filesystem.apply, filesystem.delete_file]
    split_ifs <;> exact ⟨_, rfl⟩
  | delete_directory p f =>
    simp only [effect.is_optional, decide_eq_true_eq] at hopt
    subst hopt
    simp only [filesystem.apply, filesystem.delete_directory]
    split_ifs <;> exact ⟨_, rfl⟩
  | delete_file p f =>
    simp only [effect.is_optional, decide_eq_true_eq] at hopt
    subst hopt
    simp only [filesystem.apply, filesystem.delete_file]
    split_ifs <;> exact ⟨_, rfl⟩

/-- A sequence of optional deletions never fails, creates nothing, and leaves
none of its targets behind. -/
theorem filesystem.apply_all_optional (cache_file : url → fs_path) (es : List effect)
    (hopt : ∀ e ∈ es, e.is_optional = true) (fs : filesystem) :
    ∃ fs1, filesystem.apply_all cache_file fs es = .ok fs1 ∧
      (∀ x ∈ fs1, x ∈ fs) ∧
      ∀ e ∈ es, e.target_present cache_file fs1 = false := by
  induction es generalizing fs with
  | nil => exact ⟨fs, rfl, fun _ hx => hx, by simp⟩
  | cons e es ih =>
    obtain ⟨fs1, h1⟩ := filesystem.apply_optional_ok cache_file fs e
      (hopt e (List.mem_cons_self _ _))
    obtain ⟨fs2, h2, hsub2, habs2⟩ := ih (fun x hx => hopt x (List.mem_cons_of_mem _ hx)) fs1
    have hsub1 := filesystem.apply_sublist cache_file fs fs1 e h1
    refine ⟨fs2, by simp [filesystem.apply_all, h1, h2], fun x hx => hsub1 x (hsub2 x hx), ?_⟩
    intro x hx
    rcases List.mem_cons.mp hx with rfl | hx
    · exact effect.target_present_mono cache_file fs1 fs2 hsub2 x
        (filesystem.apply_target_absent cache_file fs fs1 x h1)
    · exact habs2 x hx

/-- A sequence of optional deletions none of whose targets is there changes
nothing. -/
theorem filesystem.apply_all_absent (cache_file : url → fs_path) (es : List effect)
    (fs : filesystem) (hopt : ∀ e ∈ es, e.is_optional = true)
    (habs : ∀ e ∈ es, e.target_present cache_file fs = false) :
    filesystem.apply_all cache_file fs es = .ok fs := by
  induction es with
  | nil => rfl
  | cons e es ih =>
    have h1 := filesystem.apply_absent cache_file fs e (hopt e (List.mem_cons_self _ _))
      (habs e (List.mem_cons_self _ _))
    simp [filesystem.apply_all, h1,
      ih (fun x hx => hopt x (List.mem_cons_of_mem _ hx))
        (fun x hx => habs x (List.mem_cons_of_mem _ hx))]

/-! ## boost: the clean claims -/

namespace boost

/-- Every effect of `do_clean` is issued as optional. -/
theorem do_clean_all_optional (cf : conf) (c : clean) (v : version_info)
    (h : parsed_version cf = .ok v) : ∀ e ∈ (do_clean cf c).effects, e.is_optional = true := by
  obtain ⟨name, hsp⟩ := source_path_ok cf v h
  obtain ⟨u, hu⟩ := source_url_ok cf v h
  rw [(do_clean_run cf c _ u hsp hu).2]
  generalize is_set c .redownload = rd
  generalize is_set c .reextract = re
  generalize is_set c .reconfigure = rc
  generalize is_set c .rebuild = rb
  generalize prebuilt cf = pb
  cases rd <;> cases re <;> cases rc <;> cases rb <;> cases pb <;> simp [effect.is_optional]

/-- C1: with `reextract` set (and a well-formed boost version, without which
the task bails out), `do_clean` runs to its end, its last effect is the
optional deletion of the directory `source_path()`, and the only effects
before it are runs of the downloader in clean mode; in particular none of
`bin.v2`, `b2.exe`, `user-config-64.jam`, `project-config.jam` and the x86 and
x64 root lib directories is deleted, whatever `reconfigure`, `rebuild` and
`prebuilt` are. -/
theorem do_clean_reextract_only_source_tree (cf : conf) (c : clean) (v : version_info)
    (h : parsed_version cf = .ok v) (hre : is_set c .reextract = true) :
    ∃ sp, source_path cf = .ok sp ∧
      (do_clean cf c).result = .ok () ∧
      (∃ pre, (do_clean cf c).effects = pre ++ [effect.delete_directory sp .optional] ∧
        ∀ e ∈ pre, ∃ u, e = effect.downloader_clean u) ∧
      ∀ p f, (p = sp.join "bin.v2" ∨ b2_exe cf = .ok p ∨ config_jam_file cf = .ok p ∨
          p = sp.join "project-config.jam" ∨ root_lib_path cf .x86 = .ok p ∨
          root_lib_path cf .x64 = .ok p) →
        effect.delete_directory p f ∉ (do_clean cf c).effects ∧
        effect.delete_file p f ∉ (do_clean cf c).effects := by
  obtain ⟨name, hsp⟩ := source_path_ok cf v h
  obtain ⟨u, hu⟩ := source_url_ok cf v h
  obtain ⟨hres, heff⟩ := do_clean_run cf c _ u hsp hu
  simp only [hre, if_true] at heff
  refine ⟨_, hsp, hres, ⟨_, heff, ?_⟩, ?_⟩
  · intro e he
    split_ifs at he <;> simp at he
    all_goals exact ⟨_, he⟩
  · intro p f hp
    have hne : p ≠ cf.path_build.join name := by
      have hlib : ∀ a, (cf.path_build.join name).join (root_lib_name cf a) ≠
          cf.path_build.join name := by
        intro a
        obtain ⟨rest, hrest⟩ := root_lib_name_data cf a
        exact fs_path.join_ne_self _ _ 'l' rest hrest (by decide)
      rcases hp with rfl | hp | hp | rfl | hp | hp
      · exact fs_path.join_ne_self _ "bin.v2" 'b' "in.v2".data rfl (by decide)
      · simp only [b2_exe, hsp, Except.ok.injEq] at hp
        subst hp
        exact fs_path.join_ne_self _ "b2.exe" 'b' "2.exe".data rfl (by decide)
      · simp only [config_jam_file, hsp, Except.ok.injEq] at hp
        subst hp
        exact fs_path.join_ne_self _ "user-config-64.jam" 'u' "ser-config-64.jam".data rfl
          (by decide)
      · exact fs_path.join_ne_self _ "project-config.jam" 'p' "roject-config.jam".data rfl
          (by decide)
      · simp only [root_lib_path, hsp, Except.ok.injEq] at hp
        subst hp; exact hlib _
      · simp only [root_lib_path, hsp, Except.ok.injEq] at hp
        subst hp; exact hlib _
    rw [heff]
    constructor
    · intro hmem
      simp only [List.mem_append, List.mem_singleton] at hmem
      rcases hmem with hmem | hmem
      · split_ifs at hmem <;> simp at hmem
      · simp only [effect.delete_directory.injEq] at hmem
        exact hne hmem.1
    · intro hmem
      simp only [List.mem_append, List.mem_singleton] at hmem
      rcases hmem with hmem | hmem
      · split_ifs at hmem <;> simp at hmem
      · cases hmem

/-- Witness of C1: every flag set, boost 1.74.0 built from source. -/
theorem do_clean_reextract_only_source_tree_witness :
    parsed_version (example_conf "1.74.0" "14.2" "" false) = .ok ⟨"1", "74", "0", ""⟩ ∧
      is_set ⟨true, true, true, true⟩ .reextract = true ∧
      ∃ sp, source_path (example_conf "1.74.0" "14.2" "" false) = .ok sp ∧
        (do_clean (example_conf "1.74.0" "14.2" "" false) ⟨true, true, true, true⟩).result =
          .ok () ∧
        effect.delete_file (sp.join "b2.exe") .optional ∉
          (do_clean (example_conf "1.74.0" "14.2" "" false) ⟨true, true, true, true⟩).effects :=
  ⟨rfl, rfl,
    (do_clean_reextract_only_source_tree (example_conf "1.74.0" "14.2" "" false)
      ⟨true, true, true, true⟩ ⟨"1", "74", "0", ""⟩ rfl rfl).imp
      fun sp hsp => ⟨hsp.1, hsp.2.1,
        (hsp.2.2.2 (sp.join "b2.exe") .optional
          (Or.inr (Or.inl (by simp only [b2_exe, hsp.1])))).2⟩⟩

/-- C5: with `redownload` set (and a well-formed boost version), the first
effect of `do_clean` is one run of the downloader in clean mode, on
`prebuilt_url()` when the task is prebuilt and on `source_url()` when it is
not, and no later effect is a downloader run; with `redownload` unset no
effect is a downloader run. -/
theorem do_clean_redownload_once_first (cf : conf) (c : clean) (v : version_info)
    (h : parsed_version cf = .ok v) :
    (is_set c .redownload = true →
      ∃ u rest, (if prebuilt cf then u = prebuilt_url cf else source_url cf = .ok u) ∧
        (do_clean cf c).effects = effect.downloader_clean u :: rest ∧
        ∀ u1, effect.downloader_clean u1 ∉ rest) ∧
    (is_set c .redownload = false →
      ∀ u1, effect.downloader_clean u1 ∉ (do_clean cf c).effects) := by
  obtain ⟨name, hsp⟩ := source_path_ok cf v h
  obtain ⟨u, hu⟩ := source_url_ok cf v h
  obtain ⟨-, heff⟩ := do_clean_run cf c _ u hsp hu
  have hrest : ∀ u1, effect.downloader_clean u1 ∉
      (if is_set c .reextract then
          [effect.delete_directory (cf.path_build.join name) .optional]
       else if prebuilt cf then []
       else
        (if is_set c .reconfigure then
          [effect.delete_directory ((cf.path_build.join name).join "bin.v2") .optional,
           effect.delete_file ((cf.path_build.join name).join "b2.exe") .optional,
           effect.delete_file ((cf.path_build.join name).join "user-config-64.jam") .optional,
           effect.delete_file ((cf.path_build.join name).join "project-config.jam") .optional]
         else []) ++
        (if is_set c .rebuild then
          [effect.delete_directory
             ((cf.path_build.join name).join (root_lib_name cf .x86))
             .optional,
           effect.delete_directory
             ((cf.path_build.join name).join (root_lib_name cf .x64))
             .optional]
         else [])) := by
    intro u1 hmem
    split_ifs at hmem <;> simp at hmem
  constructor
  · intro hrd
    simp only [hrd, if_true, List.singleton_append] at heff
    refine ⟨_, _, ?_, heff, hrest⟩
    cases hpb : prebuilt cf <;> simp [hu]
  · intro hrd
    simp only [hrd, Bool.false_eq_true, if_false, List.nil_append] at heff
    rw [heff]
    exact hrest

/-- Witness of C5: `redownload | rebuild` on a boost built from source. -/
theorem do_clean_redownload_once_first_witness :
    parsed_version (example_conf "1.74.0" "14.2" "" false) = .ok ⟨"1", "74", "0", ""⟩ ∧
      is_set ⟨true, false, false, true⟩ .redownload = true ∧
      ∃ u rest,
        (if prebuilt (example_conf "1.74.0" "14.2" "" false) then
            u = prebuilt_url (example_conf "1.74.0" "14.2" "" false)
          else source_url (example_conf "1.74.0" "14.2" "" false) = .ok u) ∧
        (do_clean (example_conf "1.74.0" "14.2" "" false) ⟨true, false, false, true⟩).effects =
          effect.downloader_clean u :: rest ∧
        ∀ u1, effect.downloader_clean u1 ∉ rest :=
  ⟨rfl, rfl,
    (do_clean_redownload_once_first (example_conf "1.74.0" "14.2" "" false)
      ⟨true, false, false, true⟩ ⟨"1", "74", "0", ""⟩ rfl).1 rfl⟩

/-- C6: `do_clean` performs no effect at all (runs no tool, deletes nothing,
leaves every filesystem as it is) when `redownload` and `reextract` are unset
and the task is prebuilt or `reconfigure` and `rebuild` are unset too; and,
given a well-formed boost version, only then. -/
theorem do_clean_no_effect_iff (cf : conf) (c : clean) :
    ((is_set c .redownload = false ∧ is_set c .reextract = false ∧
        (prebuilt cf = true ∨ (is_set c .reconfigure = false ∧ is_set c .rebuild = false))) →
      (do_clean cf c).effects = [] ∧ (do_clean cf c).result = .ok () ∧
        ∀ cache_file fs, (do_clean cf c).on_filesystem cache_file fs = .ok fs) ∧
    (∀ v, parsed_version cf = .ok v → (do_clean cf c).effects = [] →
      is_set c .redownload = false ∧ is_set c .reextract = false ∧
        (prebuilt cf = true ∨ (is_set c .reconfigure = false ∧ is_set c .rebuild = false))) := by
  constructor
  · rintro ⟨hrd, hre, hrest⟩
    have hrun : (do_clean cf c).effects = [] ∧ (do_clean cf c).result = .ok () := by
      obtain ⟨rd, re, rc, rb⟩ := c
      simp only [is_set] at hrd hre hrest
      subst hrd hre
      rcases hrest with hpb | ⟨hrc, hrb⟩
      · simp [do_clean, is_set, hpb, bind, pure, task_run.bind, task_run.pure]
      · subst hrc hrb
        cases hpb : prebuilt cf <;>
          simp [do_clean, is_set, hpb, bind, pure, task_run.bind, task_run.pure]
    refine ⟨hrun.1, hrun.2, fun cache_file fs => ?_⟩
    simp [task_run.on_filesystem, hrun.1, hrun.2, filesystem.apply_all]
  · intro v h heff
    obtain ⟨name, hsp⟩ := source_path_ok cf v h
    obtain ⟨u, hu⟩ := source_url_ok cf v h
    rw [(do_clean_run cf c _ u hsp hu).2] at heff
    revert heff
    generalize is_set c .redownload = rd
    generalize is_set c .reextract = re
    generalize is_set c .reconfigure = rc
    generalize is_set c .rebuild = rb
    generalize prebuilt cf = pb
    cases rd <;> cases re <;> cases rc <;> cases rb <;> cases pb <;> simp

/-- Witness of C6: `reconfigure | rebuild` on a prebuilt boost, and no flag at
all on a boost built from source. -/
theorem do_clean_no_effect_iff_witness :
    (do_clean (example_conf "1.74.0" "14.2" "" true) ⟨false, false, true, true⟩).effects = [] ∧
      (do_clean (example_conf "1.74.0" "14.2" "" false) ⟨false, false, false, false⟩).effects
        = [] :=
  ⟨((do_clean_no_effect_iff (example_conf "1.74.0" "14.2" "" true)
      ⟨false, false, true, true⟩).1 ⟨rfl, rfl, Or.inl rfl⟩).1,
   ((do_clean_no_effect_iff (example_conf "1.74.0" "14.2" "" false)
      ⟨false, false, false, false⟩).1 ⟨rfl, rfl, Or.inr ⟨rfl, rfl⟩⟩).1⟩

/-- C4: given a well-formed boost version, every deletion of `do_clean` is
issued as optional; run against any filesystem it does not fail, and run
again on the state it left it does not fail either and leaves that state
unchanged; when none of its targets exists the first run already changes
nothing. -/
theorem do_clean_twice_same_as_once (cf : conf) (c : clean) (v : version_info)
    (cache_file : url → fs_path) (fs : filesystem) (h : parsed_version cf = .ok v) :
    (∀ e ∈ (do_clean cf c).effects, e.is_optional = true) ∧
      (∃ fs1, (do_clean cf c).on_filesystem cache_file fs = .ok fs1 ∧
        (do_clean cf c).on_filesystem cache_file fs1 = .ok fs1) ∧
      ((∀ e ∈ (do_clean cf c).effects, e.target_present cache_file fs = false) →
        (do_clean cf c).on_filesystem cache_file fs = .ok fs) := by
  have hopt := do_clean_all_optional cf c v h
  obtain ⟨name, hsp⟩ := source_path_ok cf v h
  obtain ⟨u, hu⟩ := source_url_ok cf v h
  have hres := (do_clean_run cf c _ u hsp hu).1
  refine ⟨hopt, ?_, ?_⟩
  · obtain ⟨fs1, h1, -, habs⟩ :=
      filesystem.apply_all_optional cache_file (do_clean cf c).effects hopt fs
    have h2 := filesystem.apply_all_absent cache_file (do_clean cf c).effects fs1 hopt habs
    exact ⟨fs1, by simp [task_run.on_filesystem, h1, hres],
      by simp [task_run.on_filesystem, h2, hres]⟩
  · intro habs
    have h2 := filesystem.apply_all_absent cache_file (do_clean cf c).effects fs hopt habs
    simp [task_run.on_filesystem, h2, hres]

/-- Witness of C4: `redownload | reconfigure | rebuild` on the example
filesystem. -/
theorem do_clean_twice_same_as_once_witness :
    parsed_version (example_conf "1.74.0" "14.2" "" false) = .ok ⟨"1", "74", "0", ""⟩ ∧
      ∃ fs1,
        (do_clean (example_conf "1.74.0" "14.2" "" false)
          ⟨true, false, true, true⟩).on_filesystem example_cache_file example_filesystem
            = .ok fs1 ∧
        (do_clean (example_conf "1.74.0" "14.2" "" false)
          ⟨true, false, true, true⟩).on_filesystem example_cache_file fs1 = .ok fs1 :=
  ⟨rfl, (do_clean_twice_same_as_once (example_conf "1.74.0" "14.2" "" false)
    ⟨true, false, true, true⟩ ⟨"1", "74", "0", ""⟩ example_cache_file example_filesystem
    rfl).2.1⟩

end boost

namespace boost

/-- A Visual Studio version without a separator makes the name of a root lib
directory one component, which is not `..`. -/
theorem root_lib_name_no_up_of_no_separator (cf : conf) (a : arch)
    (hvs : (version_vs cf).data.all (fun c => !is_separator c) = true) :
    path_components (root_lib_name cf a) = [root_lib_name cf a] ∧
      ".." ∉ path_components (root_lib_name cf a) := by
  obtain ⟨rest, hrest⟩ := root_lib_name_data cf a
  have hall : (root_lib_name cf a).data.all (fun c => !is_separator c) = true := by
    have hlit : ("lib".data ++ (address_model_for_arch a).data ++ "-msvc-".data).all
        (fun c => !is_separator c) = true := by
      cases a <;> decide
    simp only [root_lib_name, String.data_append, List.all_append, Bool.and_eq_true] at hlit ⊢
    exact ⟨hlit, hvs⟩
  have hone : path_components (root_lib_name cf a) = [root_lib_name cf a] := by
    unfold path_components
    rw [split_components_single _ [] hall (by simp [hrest])]
    rfl
  refine ⟨hone, ?_⟩
  rw [hone]
  simp only [List.mem_singleton]
  intro hcontra
  have := congrArg String.data hcontra
  rw [hrest] at this
  simp at this

end boost

/-! ## `task::parallel` -/

namespace task

theorem thread.step_entry (t : thread) : t.step.entry = t.entry := by
  unfold thread.step; cases t.pc <;> rfl

theorem thread.step_ok (t : thread) (h : t.ok) : t.step.ok := by
  obtain ⟨e, pc, calls, joined⟩ := t
  cases pc <;> simp_all [thread.ok, thread.step]

theorem thread.step_exited (t : thread) (h : t.pc = .exited) : t.step = t := by
  unfold thread.step; rw [h]

/-- Replacing an element by one with the same image leaves the mapped list
unchanged. -/
theorem map_set_same {α β : Type} (g : α → β) (l : List α) (k : Nat) (a b : α)
    (hk : l[k]? = some a) (hg : g b = g a) : (l.set k b).map g = l.map g := by
  apply List.ext_getElem?
  intro n
  simp only [List.getElem?_map, List.getElem?_set]
  by_cases hkn : k = n
  · subst hkn
    have hlt : k < l.length := by
      rcases List.getElem?_eq_some.mp hk with ⟨h, -⟩
      exact h
    simp [hlt, hk, hg]
  · simp [hkn]

theorem inv_init (v : List named_fn) : inv v ⟨.spawning v, []⟩ := by
  simp [inv]

theorem inv_thread_step (v : List named_fn) (s : par_state) (k : Nat) (t : thread)
    (hk : s.ts[k]? = some t) (h : inv v s) : inv v { s with ts := s.ts.set k t.step } := by
  obtain ⟨hok, hpc⟩ := h
  have htok : t.ok := hok t (List.mem_iff_getElem?.mpr ⟨k, hk⟩)
  have hmap : (s.ts.set k t.step).map (fun t => t.entry) = s.ts.map (fun t => t.entry) :=
    map_set_same _ _ _ _ _ hk (thread.step_entry t)
  have hok1 : ∀ x ∈ s.ts.set k t.step, x.ok := by
    intro x hx
    rcases List.mem_or_eq_of_mem_set hx with hx | rfl
    · exact hok x hx
    · exact thread.step_ok t htok
  refine ⟨hok1, ?_⟩
  cases hs : s.pc with
  | spawning todo =>
    rw [hs] at hpc
    simp only [hmap]
    exact hpc
  | joining i =>
    rw [hs] at hpc
    simp only [hmap]
    refine ⟨hpc.1, ?_⟩
    intro j x hj hji
    rw [List.getElem?_set] at hj
    by_cases hkj : k = j
    · subst hkj
      have hex := hpc.2 k t hk hji
      have hlt : k < s.ts.length := by
        rcases List.getElem?_eq_some.mp hk with ⟨h, -⟩
        exact h
      rw [thread.step_exited t hex.1, if_pos rfl, if_pos hlt] at hj
      cases hj
      exact hex
    · rw [if_neg hkj] at hj
      exact hpc.2 j x hj hji
  | returned =>
    rw [hs] at hpc
    simp only [hmap]
    refine ⟨hpc.1, ?_⟩
    intro x hx
    rcases List.mem_or_eq_of_mem_set hx with hx | rfl
    · exact hpc.2 x hx
    · have hex := hpc.2 t (List.mem_iff_getElem?.mpr ⟨k, hk⟩)
      rw [thread.step_exited t hex.1]
      exact hex

theorem inv_main_step (v : List named_fn) (s : par_state) (h : inv v s) :
    inv v (main_step s) := by
  obtain ⟨pc, ts⟩ := s
  obtain ⟨hok, hpc⟩ := h
  cases pc with
  | spawning todo =>
    cases todo with
    | nil =>
      simp only [main_step, inv] at hpc ⊢
      refine ⟨hok, by simpa using hpc, ?_⟩
      intro k t _ hk
      omega
    | cons e todo =>
      simp only [main_step, inv] at hpc ⊢
      refine ⟨?_, by simpa using hpc⟩
      intro t ht
      rcases List.mem_append.mp ht with ht | ht
      · exact hok t ht
      · simp only [List.mem_singleton] at ht
        subst ht
        simp [thread.ok, thread.start]
  | joining i =>
    simp only [inv] at hpc hok
    simp only [main_step]
    cases hi : ts[i]? with
    | none =>
      simp only [inv]
      refine ⟨hok, hpc.1, ?_⟩
      intro t ht
      obtain ⟨k, hk⟩ := List.mem_iff_getElem?.mp ht
      have hlen : ts.length ≤ i := List.getElem?_eq_none_iff.mp hi
      have hklt : k < ts.length := by
        rcases List.getElem?_eq_some.mp hk with ⟨h, -⟩
        exact h
      exact hpc.2 k t hk (by omega)
    | some t =>
      simp only []
      split_ifs with hex
      · simp only [inv]
        have htok : t.ok := hok t (List.mem_iff_getElem?.mpr ⟨i, hi⟩)
        refine ⟨?_, ?_, ?_⟩
        · intro x hx
          rcases List.mem_or_eq_of_mem_set hx with hx | rfl
          · exact hok x hx
          · simpa [thread.ok] using htok
        · rw [map_set_same (fun x : thread => x.entry) ts i t { t with joined := true } hi rfl]
          exact hpc.1
        · intro j x hj hji
          rw [List.getElem?_set] at hj
          by_cases hij : i = j
          · subst hij
            have hlt : i < ts.length := by
              rcases List.getElem?_eq_some.mp hi with ⟨h, -⟩
              exact h
            rw [if_pos rfl, if_pos hlt] at hj
            cases hj
            exact ⟨hex, rfl⟩
          · rw [if_neg hij] at hj
            exact hpc.2 j x hj (by omega)
      · exact ⟨hok, hpc⟩
  | returned => exact ⟨hok, hpc⟩

theorem inv_step (v : List named_fn) (s : par_state) (a : actor) (h : inv v s) :
    inv v (step s a) := by
  cases a with
  | main => exact inv_main_step v s h
  | thread k =>
    simp only [step]
    cases hk : s.ts[k]? with
    | none => exact h
    | some t => exact inv_thread_step v s k t hk h

theorem inv_run (v : List named_fn) (schedule : List actor) (s : par_state) (h : inv v s) :
    inv v (run s schedule) := by
  induction schedule generalizing s with
  | nil => exact h
  | cons a rest ih => exact ih (step s a) (inv_step v s a h)

theorem run_append (s : par_state) (a b : List actor) :
    run s (a ++ b) = run (run s a) b := by
  simp [run, List.foldl_append]

theorem thread.step_step_exited (t : thread) : t.step.step.pc = .exited := by
  obtain ⟨e, pc, calls, joined⟩ := t
  cases pc <;> rfl

theorem run_cons (s : par_state) (a : actor) (rest : List actor) :
    run s (a :: rest) = run (step s a) rest := rfl

/-- From the second loop the function can return: each thread in turn runs
its body to the end and is joined. -/
theorem can_return_joining (n : Nat) : ∀ (i : Nat) (ts : List thread), ts.length - i = n →
    ∃ more, (run ⟨.joining i, ts⟩ more).pc = .returned := by
  induction n with
  | zero =>
    intro i ts hn
    refine ⟨[.main], ?_⟩
    have hnone : ts[i]? = none := List.getElem?_eq_none (by omega)
    simp [run, step, main_step, hnone]
  | succ n ih =>
    intro i ts hn
    have hlt : i < ts.length := by omega
    obtain ⟨t, ht⟩ : ∃ t, ts[i]? = some t := ⟨ts[i], List.getElem?_eq_getElem hlt⟩
    have h1 : step ⟨.joining i, ts⟩ (.thread i) = ⟨.joining i, ts.set i t.step⟩ := by
      simp [step, ht]
    have ht1 : (ts.set i t.step)[i]? = some t.step := by
      rw [List.getElem?_set, if_pos rfl, if_pos hlt]
    have h2 : step ⟨.joining i, ts.set i t.step⟩ (.thread i) =
        ⟨.joining i, (ts.set i t.step).set i t.step.step⟩ := by
      simp [step, ht1]
    have ht2 : ((ts.set i t.step).set i t.step.step)[i]? = some t.step.step := by
      rw [List.getElem?_set, if_pos rfl, if_pos (by simpa using hlt)]
    have h3 : step ⟨.joining i, (ts.set i t.step).set i t.step.step⟩ .main =
        ⟨.joining (i + 1), ((ts.set i t.step).set i t.step.step).set i
          { t.step.step with joined := true }⟩ := by
      simp only [step, main_step, ht2, thread.step_step_exited, if_true]
    obtain ⟨more, hmore⟩ := ih (i + 1)
      (((ts.set i t.step).set i t.step.step).set i { t.step.step with joined := true })
      (by simp only [List.length_set]; omega)
    refine ⟨.thread i :: .thread i :: .main :: more, ?_⟩
    rw [run_cons, h1, run_cons, h2, run_cons, h3]
    exact hmore

/-- From the first loop the function can return. -/
theorem can_return_spawning (todo : List named_fn) : ∀ ts : List thread,
    ∃ more, (run ⟨.spawning todo, ts⟩ more).pc = .returned := by
  induction todo with
  | nil =>
    intro ts
    obtain ⟨more, hmore⟩ := can_return_joining (ts.length - 0) 0 ts rfl
    exact ⟨.main :: more, hmore⟩
  | cons e todo ih =>
    intro ts
    obtain ⟨more, hmore⟩ := ih (ts ++ [thread.start e])
    exact ⟨.main :: more, hmore⟩

/-- From every state some continuation of the schedule lets `parallel`
return. -/
theorem can_return (s : par_state) : ∃ more, (run s more).pc = .returned := by
  obtain ⟨pc, ts⟩ := s
  cases pc with
  | spawning todo => exact can_return_spawning todo ts
  | joining i => exact can_return_joining (ts.length - i) i ts rfl
  | returned => exact ⟨[], rfl⟩

/-- C8: under every schedule of the calling thread and the threads it starts,
`parallel(v)` has at any moment started threads for an initial part of `v`
only, one per entry and in order, and every thread has called `threaded_run`
at most once, on its own entry; once `parallel` has returned there is exactly
one thread per entry of `v`, every thread has called `threaded_run` exactly
once on its own entry, has exited and has been joined; and whatever has
happened so far, `parallel` can still return. -/
theorem parallel_one_thread_per_entry_all_joined (v : List named_fn) (schedule : List actor) :
    (∃ todo, (parallel v schedule).ts.map (fun t => t.entry) ++ todo = v) ∧
      (∀ t ∈ (parallel v schedule).ts, t.calls = [] ∨ t.calls = [t.entry]) ∧
      ((parallel v schedule).pc = .returned →
        (parallel v schedule).ts.map (fun t => t.entry) = v ∧
          (parallel v schedule).ts.length = v.length ∧
          ∀ t ∈ (parallel v schedule).ts,
            t.calls = [t.entry] ∧ t.pc = .exited ∧ t.joined = true) ∧
      ∃ more, (parallel v (schedule ++ more)).pc = .returned := by
  have hinv : inv v (parallel v schedule) := inv_run v schedule _ (inv_init v)
  obtain ⟨hok, hpc⟩ := hinv
  have hcalls : ∀ t ∈ (parallel v schedule).ts, t.calls = [] ∨ t.calls = [t.entry] := by
    intro t ht
    have := hok t ht
    unfold thread.ok at this
    cases hp : t.pc <;> rw [hp] at this <;> simp [this]
  refine ⟨?_, hcalls, ?_, ?_⟩
  · cases hs : (parallel v schedule).pc with
    | spawning todo => rw [hs] at hpc; exact ⟨todo, hpc⟩
    | joining i => rw [hs] at hpc; exact ⟨[], by simpa using hpc.1⟩
    | returned => rw [hs] at hpc; exact ⟨[], by simpa using hpc.1⟩
  · intro hret
    rw [hret] at hpc
    refine ⟨hpc.1, ?_, ?_⟩
    · have := congrArg List.length hpc.1
      simpa using this
    · intro t ht
      have hex := hpc.2 t ht
      have := hok t ht
      unfold thread.ok at this
      rw [hex.1] at this
      exact ⟨this, hex⟩
  · obtain ⟨more, hmore⟩ := can_return (parallel v schedule)
    exact ⟨more, by rw [parallel, run_append]; exact hmore⟩

/-- Witness of C8: two entries; the threads run interleaved with the calling
thread, which blocks in `join` until the first thread has exited. -/
theorem parallel_one_thread_per_entry_all_joined_witness :
    (parallel [⟨"a", 0⟩, ⟨"b", 1⟩]
        [.main, .thread 0, .main, .main, .thread 1, .thread 1, .main, .thread 0, .main,
          .main, .main]).pc = .returned ∧
      (parallel [⟨"a", 0⟩, ⟨"b", 1⟩]
        [.main, .thread 0, .main, .main, .thread 1, .thread 1, .main, .thread 0, .main,
          .main, .main]).ts.map (fun t => t.entry) = [⟨"a", 0⟩, ⟨"b", 1⟩] :=
  ⟨by decide,
    ((parallel_one_thread_per_entry_all_joined [⟨"a", 0⟩, ⟨"b", 1⟩]
      [.main, .thread 0, .main, .main, .thread 1, .thread 1, .main, .thread 0, .main,
        .main, .main]).2.2.1 (by decide)).1⟩

end task

end mob
